import Mathlib

/-!
Verification of the killteamjson utility scripts: a shallow embedding of the
field-selective JSON tree transformers, the field classifiers, the character
normalizer, the batching provider adapter and the file-level clean/merge/fix
operations, together with proofs of the specified properties.

Python strings are modeled as Lean `String` (a list of characters); where a
script manipulates individual characters (check_unicode.py, the newline
batching of translate_batch.py) we work on `List Char` directly.  Python
dictionaries are modeled as ordered association lists, like the insertion
order that CPython preserves.  Fallible Python code (code that can raise) is
modeled with `Option`/`Except`.
-/

/-! ### Python string primitives -/

/-- The whitespace characters stripped by Python `str.strip()` (ASCII range). -/
def isPySpace (c : Char) : Bool :=
  c = ' ' || c = '\t' || c = '\n' || c = '\r' || c = '\x0b' || c = '\x0c'

/-- Truthiness of `s.strip()` in Python: the stripped string is non-empty,
i.e. some character is not whitespace. -/
def strippedNonEmpty (s : String) : Bool :=
  s.data.any (fun c => !isPySpace c)

/-- Python `s.lower()` (ASCII letters). -/
def pyLower (s : String) : String := String.mk (s.data.map Char.toLower)

/-- Python `s.startswith(p)`. -/
def pyStartsWith (s p : String) : Bool := p.data.isPrefixOf s.data

/-- Python `s.endswith(p)`. -/
def pyEndsWith (s p : String) : Bool := p.data.isSuffixOf s.data

/-- Substring containment on character lists. -/
def subIn (sub l : List Char) : Bool := l.tails.any (fun t => sub.isPrefixOf t)

/-- Python `sub in s` on strings. -/
def pyContains (s sub : String) : Bool := subIn sub.data s.data

/-- Python `field_name.lower().endswith(('id', '_id', 'code', '_code'))`,
shared by the heuristic classifiers. -/
def endsIdCode (name : String) : Bool :=
  let l := pyLower name
  pyEndsWith l "id" || pyEndsWith l "_id" || pyEndsWith l "code" || pyEndsWith l "_code"

/-! ### The JSON data model -/

/-- A JSON value as produced by `json.load`: objects are ordered key/value
association lists (CPython dicts preserve insertion order). -/
inductive JVal where
  | str (s : String)
  | num (n : Int)
  | bool (b : Bool)
  | null
  | arr (elems : List JVal)
  | obj (fields : List (String × JVal))

/-- Structural induction principle for `JVal` that hands the inductive
hypothesis to every array element and every object field value. -/
theorem JVal.inductionOn (P : JVal → Prop)
    (hstr : ∀ s, P (.str s))
    (hnum : ∀ n, P (.num n))
    (hbool : ∀ b, P (.bool b))
    (hnull : P .null)
    (harr : ∀ es, (∀ e ∈ es, P e) → P (.arr es))
    (hobj : ∀ kvs, (∀ kv ∈ kvs, P kv.2) → P (.obj kvs)) :
    ∀ v, P v := by
  intro v
  match v with
  | .str s => exact hstr s
  | .num n => exact hnum n
  | .bool b => exact hbool b
  | .null => exact hnull
  | .arr es =>
    refine harr es (fun e he => ?_)
    have hlt : sizeOf e < sizeOf (JVal.arr es) := by
      have h1 : sizeOf e < sizeOf es := List.sizeOf_lt_of_mem he
      simp only [JVal.arr.sizeOf_spec]
      omega
    exact JVal.inductionOn P hstr hnum hbool hnull harr hobj e
  | .obj kvs =>
    refine hobj kvs (fun kv hkv => ?_)
    have h1 : sizeOf kv < sizeOf kvs := List.sizeOf_lt_of_mem hkv
    have h2 : sizeOf kv.2 < sizeOf kv := by
      obtain ⟨k, v2⟩ := kv
      simp only [Prod.mk.sizeOf_spec]
      omega
    have hlt : sizeOf kv.2 < sizeOf (JVal.obj kvs) := by
      simp only [JVal.obj.sizeOf_spec]
      omega
    exact JVal.inductionOn P hstr hnum hbool hnull harr hobj kv.2
termination_by v => sizeOf v

/-- The shape of a JSON value: object keys (with order) and array lengths are
kept, scalar payloads are erased.  Two values have the same shape exactly when
no key was added, removed, renamed or reordered and no array length changed. -/
inductive JShape where
  | scalar
  | arr (elems : List JShape)
  | obj (fields : List (String × JShape))

mutual
def shapeOf : JVal → JShape
  | .str _ => .scalar
  | .num _ => .scalar
  | .bool _ => .scalar
  | .null => .scalar
  | .arr es => .arr (shapeOfList es)
  | .obj kvs => .obj (shapeOfObj kvs)
def shapeOfList : List JVal → List JShape
  | [] => []
  | v :: rest => shapeOf v :: shapeOfList rest
def shapeOfObj : List (String × JVal) → List (String × JShape)
  | [] => []
  | (k, v) :: rest => (k, shapeOf v) :: shapeOfObj rest
end

/-- Top-level keys of a JSON object (used to exhibit shape changes). -/
def topKeys : JVal → List String
  | .obj kvs => kvs.map Prod.fst
  | _ => []

/-- First-match lookup in an ordered association list (Python `d[k]` /
`k in d` on a dict with unique keys). -/
def lookupKV {α : Type} (kvs : List (String × α)) (k : String) : Option α :=
  (kvs.find? (fun kv => kv.1 == k)).map Prod.snd

/-! ### translation_config.py -/

namespace TranslationConfig

/-- A node of the per-file rule tree from `TRANSLATION_RULES`: either a boolean
leaf (`True` in the Python literal) or a nested dict. -/
inductive RuleTree where
  | val (b : Bool)
  | node (children : List (String × RuleTree))

/-- Python truthiness of a rule-tree entry: a boolean is itself, a dict is
truthy when non-empty (`should_translate_field` returns
`current_rules.get(field_name, False)`, which may be a sub-dict). -/
def RuleTree.truthy : RuleTree → Bool
  | .val b => b
  | .node children => !children.isEmpty

/-- The literal `TRANSLATION_RULES` table of translation_config.py. -/
def TRANSLATION_RULES : List (String × RuleTree) :=
  [ ("actions.json", .node
      [("actions", .node
        [("name", .val true), ("description", .val true),
         ("effects", .val true), ("conditions", .val true)])]),
    ("ops_2025.json", .node
      [("ops", .node
        [("title", .val true), ("reveal", .val true),
         ("additionalRules", .val true), ("victoryPoints", .val true)]),
       ("actions", .node
        [("name", .val true), ("description", .val true),
         ("effects", .val true), ("conditions", .val true)])]),
    ("teams", .node
      [("killteamName", .val true), ("description", .val true),
       ("composition", .val true),
       ("opTypes", .node
        [("opTypeName", .val true),
         ("weapons", .node
          [("wepName", .val true),
           ("profiles", .node [("profileName", .val true)])]),
         ("abilities", .node
          [("abilityName", .val true), ("description", .val true)]),
         ("options", .node
          [("optionName", .val true), ("description", .val true)])])]),
    ("universal_equipment.json", .node
      [("equipments", .node
        [("eqName", .val true), ("description", .val true),
         ("effects", .val true)]),
       ("actions", .node
        [("name", .val true), ("description", .val true),
         ("effects", .val true), ("conditions", .val true)])]),
    ("weapon_rules.json", .node
      [("weapon_rules", .node
        [("name", .val true), ("description", .val true)])]) ]

/-- The rule-set key resolution at the top of `should_translate_field`: any
`.json` file whose (lowercased) name mentions `teams` uses the `'teams'`
rules, otherwise the file name itself is the key. -/
def resolveRulesKey (fileName : String) : String :=
  if pyEndsWith fileName ".json" && pyContains (pyLower fileName) "teams" then
    "teams"
  else fileName

/-- The `for parent_field in field_path` walk of `should_translate_field`:
descend through dict nodes, failing when a segment is absent or when the walk
runs past a boolean leaf. -/
def navigate : RuleTree → List String → Option RuleTree
  | rt, [] => some rt
  | .node children, p :: rest =>
      match lookupKV children p with
      | some sub => navigate sub rest
      | none => none
  | .val _, _ :: _ => none

/-- Terminal lookup of the field name: only possible at a dict node
(`isinstance(current_rules, dict)`). -/
def terminalEntry : RuleTree → String → Option RuleTree
  | .val _, _ => none
  | .node children, name => lookupKV children name

/-- `should_translate_field(file_name, field_path, field_name)` from
translation_config.py. -/
def should_translate_field (fileName : String) (fieldPath : List String)
    (fieldName : String) : Bool :=
  match lookupKV TRANSLATION_RULES (resolveRulesKey fileName) with
  | none => false
  | some rules =>
      match navigate rules fieldPath with
      | none => false
      | some t =>
          match terminalEntry t fieldName with
          | some entry => entry.truthy
          | none => false

end TranslationConfig

/-- C2: the allow-list field classifier is fail-closed.  If the resolved file
identity has no rule set, or any ancestor-path segment is absent from the rule
subtree (including paths that run past a boolean leaf), or the field name is
absent at the terminal rule node, then `should_translate_field` returns
`false`. -/
theorem should_translate_field_fail_closed
    (fileName : String) (fieldPath : List String) (fieldName : String) :
    (lookupKV TranslationConfig.TRANSLATION_RULES
        (TranslationConfig.resolveRulesKey fileName) = none →
      TranslationConfig.should_translate_field fileName fieldPath fieldName = false) ∧
    (∀ rules,
      lookupKV TranslationConfig.TRANSLATION_RULES
          (TranslationConfig.resolveRulesKey fileName) = some rules →
      TranslationConfig.navigate rules fieldPath = none →
      TranslationConfig.should_translate_field fileName fieldPath fieldName = false) ∧
    (∀ rules t,
      lookupKV TranslationConfig.TRANSLATION_RULES
          (TranslationConfig.resolveRulesKey fileName) = some rules →
      TranslationConfig.navigate rules fieldPath = some t →
      TranslationConfig.terminalEntry t fieldName = none →
      TranslationConfig.should_translate_field fileName fieldPath fieldName = false) := by
  refine ⟨fun h => ?_, fun rules h1 h2 => ?_, fun rules t h1 h2 h3 => ?_⟩
  · simp [TranslationConfig.should_translate_field, h]
  · simp [TranslationConfig.should_translate_field, h1, h2]
  · simp [TranslationConfig.should_translate_field, h1, h2, h3]

/-- Witness for C2: concrete fail-closed classifications — an unknown file, a
path with a segment missing from the rule tree, a path running past a boolean
leaf, and an unknown field name at a terminal node. -/
theorem should_translate_field_fail_closed_witness :
    TranslationConfig.should_translate_field "unknown.json" [] "name" = false ∧
    TranslationConfig.should_translate_field "actions.json" ["nosuch"] "name" = false ∧
    TranslationConfig.should_translate_field "actions.json" ["actions", "name", "deeper"] "x" = false ∧
    TranslationConfig.should_translate_field "actions.json" ["actions"] "id" = false := by
  refine ⟨?_, ?_, ?_, ?_⟩
  · exact (should_translate_field_fail_closed "unknown.json" [] "name").1 rfl
  · exact (should_translate_field_fail_closed "actions.json" ["nosuch"] "name").2.1
      (.node [("actions", .node
        [("name", .val true), ("description", .val true),
         ("effects", .val true), ("conditions", .val true)])]) rfl rfl
  · exact (should_translate_field_fail_closed "actions.json" ["actions", "name", "deeper"] "x").2.1
      (.node [("actions", .node
        [("name", .val true), ("description", .val true),
         ("effects", .val true), ("conditions", .val true)])]) rfl rfl
  · exact (should_translate_field_fail_closed "actions.json" ["actions"] "id").2.2
      (.node [("actions", .node
        [("name", .val true), ("description", .val true),
         ("effects", .val true), ("conditions", .val true)])])
      (.node [("name", .val true), ("description", .val true),
              ("effects", .val true), ("conditions", .val true)])
      rfl rfl rfl

/-! ### translate_comprehensive.py -/

namespace TransComprehensive

/-- `NON_TRANSLATABLE_FIELDS` from translate_comprehensive.py. -/
def NON_TRANSLATABLE_FIELDS : List String :=
  ["id", "type", "seq", "AP", "APL", "GA", "DF", "SV", "W", "M",
   "MV", "APL_base", "GA_base", "DF_base", "SV_base", "W_base",
   "M_base", "MV_base", "D", "A", "BS", "WS"]

/-- `TRANSLATABLE_FIELDS` from translate_comprehensive.py. -/
def TRANSLATABLE_FIELDS : List String :=
  ["name", "description", "killteamName", "opTypeName", "wepName",
   "abilityName", "ployName", "eqName", "optionName", "title",
   "profileName", "composition", "reveal", "additionalRules",
   "victoryPoints", "effects", "conditions", "packs", "archetypes",
   "ability", "keyword"]

/-- `should_translate_field(field_name, value)` from translate_comprehensive.py:
explicit exclude list first, then explicit include list, then the heuristic on
string values (non-empty after strip, no leading underscore, no id/code-like
suffix). -/
def should_translate_field (fieldName : String) (value : JVal) : Bool :=
  if fieldName ∈ NON_TRANSLATABLE_FIELDS then false
  else if fieldName ∈ TRANSLATABLE_FIELDS then true
  else
    match value with
    | .str s =>
        if strippedNonEmpty s && !pyStartsWith fieldName "_" then
          if endsIdCode fieldName then false else true
        else false
    | _ => false

/-- The string branch of `translate_value`: translate when classified in scope
and non-whitespace.  (The `try/except` around the provider call cannot fire in
the embedding because the leaf transform is a total function.) -/
def translateStr (tt : String → String) (s : String) (fieldName : String) : String :=
  if should_translate_field fieldName (.str s) && strippedNonEmpty s then tt s else s

/-- Python dict insertion `result[k] = v` on an ordered association list:
an existing key keeps its position and gets the new value, a new key is
appended. -/
def pyDictInsert (kvs : List (String × JVal)) (k : String) (v : JVal) :
    List (String × JVal) :=
  if kvs.any (fun kv => kv.1 == k) then
    kvs.map (fun kv => if kv.1 == k then (k, v) else kv)
  else kvs ++ [(k, v)]

mutual
/-- `translate_value(value, field_name, target_lang, translate_func)` from
translate_comprehensive.py.  Note that the object case also translates the
*key* when it is listed in `TRANSLATABLE_FIELDS` (via
`translate_value(k, "", ...)`, whose string branch is `translateStr tt k ""`). -/
def translate_value (tt : String → String) : JVal → String → JVal
  | .str s, fieldName => .str (translateStr tt s fieldName)
  | .num n, _ => .num n
  | .bool b, _ => .bool b
  | .null, _ => .null
  | .obj kvs, _ => .obj (translateObj tt kvs [])
  | .arr [], _ => .arr []
  | .arr (first :: rest), fieldName =>
      match first with
      | .str fs =>
          if fieldName ∈ (["effects", "conditions", "packs"] : List String)
              || should_translate_field fieldName (.str fs) then
            .arr ((first :: rest).map (fun item =>
              match item with
              | .str s => if strippedNonEmpty s then .str (tt s) else .str s
              | other => other))
          else .arr (first :: rest)
      | _ => .arr (translateList tt (first :: rest) fieldName)
def translateList (tt : String → String) : List JVal → String → List JVal
  | [], _ => []
  | v :: rest, fieldName =>
      translate_value tt v fieldName :: translateList tt rest fieldName
def translateObj (tt : String → String) :
    List (String × JVal) → List (String × JVal) → List (String × JVal)
  | [], acc => acc
  | (k, v) :: rest, acc =>
      let tk := if k ∈ TRANSLATABLE_FIELDS then translateStr tt k "" else k
      translateObj tt rest (pyDictInsert acc tk (translate_value tt v k))
end

end TransComprehensive

/-- C3: the deny-list-with-heuristic classifier of translate_comprehensive.py
on a string-valued field.  The exclude list wins over everything (so a name in
both lists classifies false); otherwise the include list forces true; otherwise
the heuristic holds exactly for non-empty, non-whitespace values whose field
name neither starts with an underscore nor ends (case-insensitively) in
`id`, `_id`, `code` or `_code`. -/
theorem comprehensive_classifier_policy (fieldName s : String) :
    (fieldName ∈ TransComprehensive.NON_TRANSLATABLE_FIELDS →
      TransComprehensive.should_translate_field fieldName (.str s) = false) ∧
    (fieldName ∉ TransComprehensive.NON_TRANSLATABLE_FIELDS →
      fieldName ∈ TransComprehensive.TRANSLATABLE_FIELDS →
      TransComprehensive.should_translate_field fieldName (.str s) = true) ∧
    (fieldName ∉ TransComprehensive.NON_TRANSLATABLE_FIELDS →
      fieldName ∉ TransComprehensive.TRANSLATABLE_FIELDS →
      (TransComprehensive.should_translate_field fieldName (.str s) = true ↔
        strippedNonEmpty s = true ∧ pyStartsWith fieldName "_" = false ∧
        endsIdCode fieldName = false)) := by
  refine ⟨fun h => ?_, fun h1 h2 => ?_, fun h1 h2 => ?_⟩
  · simp [TransComprehensive.should_translate_field, h]
  · simp [TransComprehensive.should_translate_field, h1, h2]
  · simp only [TransComprehensive.should_translate_field, if_neg h1, if_neg h2]
    constructor
    · intro h
      by_cases hs : (strippedNonEmpty s && !pyStartsWith fieldName "_") = true
      · rcases Bool.and_eq_true_iff.mp hs with ⟨hs1, hs2⟩
        rw [if_pos hs] at h
        by_cases he : endsIdCode fieldName = true
        · rw [if_pos he] at h
          exact absurd h (by simp)
        · exact ⟨hs1, by simpa using hs2, by simpa using he⟩
      · rw [if_neg hs] at h
        exact absurd h (by simp)
    · rintro ⟨h3, h4, h5⟩
      rw [if_pos (by simp [h3, h4]), if_neg (by simp [h5])]

/-- Witness for C3: `"id"` is excluded even though the heuristic would accept
it; `"name"` is included; the unknown field `"flavor"` falls to the heuristic,
which accepts a non-empty value and rejects a whitespace one and an
identifier-like name. -/
theorem comprehensive_classifier_policy_witness :
    TransComprehensive.should_translate_field "id" (.str "hello") = false ∧
    TransComprehensive.should_translate_field "name" (.str "hello") = true ∧
    TransComprehensive.should_translate_field "flavor" (.str "hello") = true ∧
    TransComprehensive.should_translate_field "flavor" (.str "  ") = false ∧
    TransComprehensive.should_translate_field "unitId" (.str "hello") = false := by
  refine ⟨?_, ?_, ?_, ?_, ?_⟩
  · exact (comprehensive_classifier_policy "id" "hello").1 (by decide)
  · exact (comprehensive_classifier_policy "name" "hello").2.1 (by decide) (by decide)
  · exact (comprehensive_classifier_policy "flavor" "hello").2.2 (by decide) (by decide)
      |>.mpr ⟨by decide, by decide, by decide⟩
  · by_contra h
    have := (comprehensive_classifier_policy "flavor" "  ").2.2 (by decide) (by decide)
      |>.mp (by simpa using h)
    exact absurd this.1 (by decide)
  · by_contra h
    have := (comprehensive_classifier_policy "unitId" "hello").2.2 (by decide) (by decide)
      |>.mp (by simpa using h)
    exact absurd this.2.2 (by decide)

/-- C1 counterexample: the comprehensive walker renames object keys.  With the
leaf transform that returns `"zz"` for every input, the document
`{"name": "x"}` is transformed into `{"zz": "zz"}`: the key `"name"` (listed in
`TRANSLATABLE_FIELDS`) is itself translated, so the transformed document does
not have the same keys as the input. -/
theorem translate_comprehensive_renames_keys :
    TransComprehensive.translate_value (fun _ => "zz")
        (JVal.obj [("name", JVal.str "x")]) "" = JVal.obj [("zz", JVal.str "zz")] ∧
    topKeys (JVal.obj [("zz", JVal.str "zz")]) ≠
      topKeys (JVal.obj [("name", JVal.str "x")]) := by
  exact ⟨rfl, by decide⟩

/-! ### translate_precise.py -/

namespace TransPrecise

/-- Outcome of one `requests.get` call to the provider inside `translate_text`:
either the call raised (network error, timeout, ...), or it returned a response
with a status code and a payload.  The payload is `response.json()`: an error
models a raised `JSONDecodeError` (malformed payload), otherwise the parsed
value is the nested list structure `result`, whose first element is the list of
parts and where `part[0]` is a translated fragment. -/
inductive CallOutcome where
  | raised
  | response (status : Nat) (payload : Except Unit (List (List (List String))))

/-- The payload scan `if result and result[0]: [part[0] for part in result[0]
if part[0]]`: `none` when `result` or `result[0]` is falsy (code falls through
to `return text`), an error when some `part` is empty (`part[0]` raises
`IndexError`), otherwise the joined non-empty fragments. -/
def extractParts (result : List (List (List String))) : Except Unit (Option String) :=
  match result with
  | [] => .ok none
  | parts :: _ =>
      if parts.isEmpty then .ok none
      else do
        let firsts ← parts.mapM (fun part =>
          match part with
          | [] => Except.error ()
          | s :: _ => Except.ok s)
        .ok (some (String.join (firsts.filter (fun s => !s.isEmpty))))

/-- One attempt of the body of `translate_text`: `.error` means an exception
reached the surrounding `except` handler, `.ok s` means the code returned the
string `s` (either a translation or the fall-through `return text`). -/
def attempt (text : String) (o : CallOutcome) : Except Unit String :=
  match o with
  | .raised => .error ()
  | .response status payload =>
      if status = 200 then
        match payload with
        | .error _ => .error ()
        | .ok result =>
            match extractParts result with
            | .error _ => .error ()
            | .ok (some t) => .ok t
            | .ok none => .ok text
      else .ok text

/-- `translate_text(text, target_lang)` from translate_precise.py, with the
two provider-call outcomes (first attempt and the single retry) made explicit.
The target language only parameterizes the network request, so it does not
appear in the embedding. -/
def translate_text (text : String) (o₁ o₂ : CallOutcome) : String :=
  if text.isEmpty || !strippedNonEmpty text then text
  else
    match attempt text o₁ with
    | .ok s => s
    | .error _ =>
        match attempt text o₂ with
        | .ok s => s
        | .error _ => text

/-- The failures enumerated by the spec: a raised exception (network error or
timeout), a non-200 status, a malformed payload, or an exception raised while
scanning the payload. -/
def callFails (o : CallOutcome) : Bool :=
  match o with
  | .raised => true
  | .response status payload =>
      if status = 200 then
        match payload with
        | .error _ => true
        | .ok result =>
            match extractParts result with
            | .error _ => true
            | .ok _ => false
      else true

/-- On any failing outcome, a single attempt either returns the original text
(non-200) or lets an exception reach the handler. -/
theorem attempt_of_fails (text : String) (o : CallOutcome) (h : callFails o = true) :
    attempt text o = Except.ok text ∨ attempt text o = Except.error () := by
  cases o with
  | raised => right; rfl
  | response status payload =>
      by_cases hs : status = 200
      · subst hs
        cases payload with
        | error e => right; rfl
        | ok result =>
            simp only [callFails, if_pos rfl] at h
            cases hx : extractParts result with
            | error e => right; simp [attempt, hx]
            | ok t => rw [hx] at h; exact absurd h (by simp)
      · left; simp [attempt, hs]

end TransPrecise

/-- C4: `translate_text` of translate_precise.py never raises — it is a total
function of the two provider-call outcomes — and whenever the provider call
fails (non-200 response, timeout, malformed payload, or any raised exception)
and the single retry fails as well, it returns the original text unchanged. -/
theorem translate_text_falls_back_to_original
    (text : String) (o₁ o₂ : TransPrecise.CallOutcome)
    (h₁ : TransPrecise.callFails o₁ = true)
    (h₂ : TransPrecise.callFails o₂ = true) :
    TransPrecise.translate_text text o₁ o₂ = text := by
  unfold TransPrecise.translate_text
  by_cases ht : (text.isEmpty || !strippedNonEmpty text) = true
  · rw [if_pos ht]
  · rw [if_neg ht]
    rcases TransPrecise.attempt_of_fails text o₁ h₁ with h | h <;> rw [h]
    rcases TransPrecise.attempt_of_fails text o₂ h₂ with h' | h' <;> rw [h']

/-- Witness for C4: a timeout on the first call and a 500 response on the
retry leave `"hello"` unchanged. -/
theorem translate_text_falls_back_to_original_witness :
    TransPrecise.translate_text "hello" .raised
      (.response 500 (.ok [])) = "hello" :=
  translate_text_falls_back_to_original "hello" .raised
    (.response 500 (.ok [])) rfl rfl

namespace TransPrecise

mutual
/-- `translate_value(value, field_name, field_path, file_name, target_lang)`
from translate_precise.py.  Classification uses
`translation_config.should_translate_field`; only non-whitespace string leaves
classified in scope are transformed.  An `.error` result models the
`AttributeError` raised by `item.strip()` when an array whose first element is
a string also contains a non-string and the array is classified in scope. -/
def translate_value (tt : String → String) (fileName : String) :
    JVal → String → List String → Except Unit JVal
  | .str s, fieldName, fieldPath =>
      if TranslationConfig.should_translate_field fileName fieldPath fieldName
          && strippedNonEmpty s then
        .ok (.str (tt s))
      else .ok (.str s)
  | .num n, _, _ => .ok (.num n)
  | .bool b, _, _ => .ok (.bool b)
  | .null, _, _ => .ok .null
  | .obj kvs, fieldName, fieldPath =>
      let newPath := if fieldName ≠ "" then fieldPath ++ [fieldName] else fieldPath
      match translateObj tt fileName kvs newPath with
      | .error e => .error e
      | .ok kvs' => .ok (.obj kvs')
  | .arr [], _, _ => .ok (.arr [])
  | .arr (first :: rest), fieldName, fieldPath =>
      match first with
      | .str _ =>
          if TranslationConfig.should_translate_field fileName fieldPath fieldName then
            match translateStrArr tt (first :: rest) with
            | .error e => .error e
            | .ok items => .ok (.arr items)
          else .ok (.arr (first :: rest))
      | _ =>
          let newPath := if fieldName ≠ "" then fieldPath ++ [fieldName] else fieldPath
          match translateArr tt fileName (first :: rest) newPath with
          | .error e => .error e
          | .ok items => .ok (.arr items)

/-- The element loop of the string-array branch: non-whitespace strings are
translated, whitespace strings pass through, a non-string raises. -/
def translateStrArr (tt : String → String) : List JVal → Except Unit (List JVal)
  | [] => .ok []
  | .str s :: rest =>
      match translateStrArr tt rest with
      | .error e => .error e
      | .ok rest' =>
          if strippedNonEmpty s then .ok (.str (tt s) :: rest')
          else .ok (.str s :: rest')
  | _ :: _ => .error ()

/-- The recursive branch for arrays of structured values: each element is
walked with an empty field name and the extended path. -/
def translateArr (tt : String → String) (fileName : String) :
    List JVal → List String → Except Unit (List JVal)
  | [], _ => .ok []
  | v :: rest, path =>
      match translate_value tt fileName v "" path with
      | .error e => .error e
      | .ok v' =>
          match translateArr tt fileName rest path with
          | .error e => .error e
          | .ok rest' => .ok (v' :: rest')

/-- The dict comprehension of the object branch: keys are kept verbatim, each
value is walked with its key as the field name. -/
def translateObj (tt : String → String) (fileName : String) :
    List (String × JVal) → List String → Except Unit (List (String × JVal))
  | [], _ => .ok []
  | (k, v) :: rest, path =>
      match translate_value tt fileName v k path with
      | .error e => .error e
      | .ok v' =>
          match translateObj tt fileName rest path with
          | .error e => .error e
          | .ok rest' => .ok ((k, v') :: rest')
end

end TransPrecise

namespace TransPrecise

/-- The string-array loop preserves the element shapes (each element stays a
string scalar) and the array length. -/
theorem translateStrArr_shape (tt : String → String) :
    ∀ items items', translateStrArr tt items = .ok items' →
      shapeOfList items' = shapeOfList items := by
  intro items
  induction items with
  | nil =>
      intro items' h
      simp only [translateStrArr] at h
      injection h with h
      subst h
      rfl
  | cons head rest ih =>
      intro items' h
      cases head with
      | str s =>
          simp only [translateStrArr] at h
          split at h
          · exact Except.noConfusion h
          next rest' heq =>
            split at h
            · injection h with h
              subst h
              simp [shapeOfList, shapeOf, ih rest' heq]
            · injection h with h
              subst h
              simp [shapeOfList, shapeOf, ih rest' heq]
      | num n => simp only [translateStrArr] at h; exact Except.noConfusion h
      | bool b => simp only [translateStrArr] at h; exact Except.noConfusion h
      | null => simp only [translateStrArr] at h; exact Except.noConfusion h
      | arr es => simp only [translateStrArr] at h; exact Except.noConfusion h
      | obj kvs => simp only [translateStrArr] at h; exact Except.noConfusion h

/-- The structured-array loop preserves shapes, given shape preservation for
each element. -/
theorem translateArr_shape (tt : String → String) (fileName : String) :
    ∀ (items : List JVal),
      (∀ e ∈ items, ∀ fieldName fieldPath r,
        translate_value tt fileName e fieldName fieldPath = .ok r →
        shapeOf r = shapeOf e) →
      ∀ path items', translateArr tt fileName items path = .ok items' →
        shapeOfList items' = shapeOfList items := by
  intro items
  induction items with
  | nil =>
      intro _ path items' h
      simp only [translateArr] at h
      injection h with h
      subst h
      rfl
  | cons hd tl ihtl =>
      intro hIH path items' h
      simp only [translateArr] at h
      cases hv : translate_value tt fileName hd "" path with
      | error e => rw [hv] at h; exact absurd h (by simp)
      | ok v' =>
          rw [hv] at h
          cases htl : translateArr tt fileName tl path with
          | error e => rw [htl] at h; exact absurd h (by simp)
          | ok tl' =>
              rw [htl] at h
              injection h with h
              subst h
              have h1 := hIH hd (by simp) "" path v' hv
              have h2 := ihtl (fun e he => hIH e (by simp [he])) path tl' htl
              simp [shapeOfList, h1, h2]

/-- The object loop keeps every key in place and preserves the value shapes,
given shape preservation for each field value. -/
theorem translateObj_shape (tt : String → String) (fileName : String) :
    ∀ (kvs : List (String × JVal)),
      (∀ kv ∈ kvs, ∀ fieldName fieldPath r,
        translate_value tt fileName kv.2 fieldName fieldPath = .ok r →
        shapeOf r = shapeOf kv.2) →
      ∀ path kvs', translateObj tt fileName kvs path = .ok kvs' →
        shapeOfObj kvs' = shapeOfObj kvs := by
  intro kvs
  induction kvs with
  | nil =>
      intro _ path kvs' h
      simp only [translateObj] at h
      injection h with h
      subst h
      rfl
  | cons hd tl ihtl =>
      obtain ⟨k, v⟩ := hd
      intro hIH path kvs' h
      simp only [translateObj] at h
      cases hv : translate_value tt fileName v k path with
      | error e => rw [hv] at h; exact absurd h (by simp)
      | ok v' =>
          rw [hv] at h
          cases htl : translateObj tt fileName tl path with
          | error e => rw [htl] at h; exact absurd h (by simp)
          | ok tl' =>
              rw [htl] at h
              injection h with h
              subst h
              have h1 := hIH (k, v) (by simp) k path v' hv
              have h2 := ihtl (fun e he => hIH e (by simp [he])) path tl' htl
              simp [shapeOfObj, h1, h2]

end TransPrecise

/-- C1 (amended): the precise walker preserves document shape.  For every
document, file identity, ancestor path, field name and leaf transform, if
`translate_value` of translate_precise.py completes without an exception, the
result has exactly the same shape as the input: the same object keys in the
same insertion order, the same array lengths, no key added, removed or
renamed.  (The original claim fails for translate_comprehensive.py, whose
walker also translates keys listed in `TRANSLATABLE_FIELDS` —
see `translate_comprehensive_renames_keys`.) -/
theorem precise_walk_preserves_shape (tt : String → String) (fileName : String)
    (v : JVal) :
    ∀ (fieldName : String) (fieldPath : List String) (r : JVal),
      TransPrecise.translate_value tt fileName v fieldName fieldPath = .ok r →
      shapeOf r = shapeOf v := by
  induction v using JVal.inductionOn with
  | hstr s =>
      intro fieldName fieldPath r h
      simp only [TransPrecise.translate_value] at h
      by_cases hc : (TranslationConfig.should_translate_field fileName fieldPath fieldName
          && strippedNonEmpty s) = true
      · rw [if_pos hc] at h; injection h with h; subst h; rfl
      · rw [if_neg hc] at h; injection h with h; subst h; rfl
  | hnum n =>
      intro fieldName fieldPath r h
      simp only [TransPrecise.translate_value] at h
      injection h with h; subst h; rfl
  | hbool b =>
      intro fieldName fieldPath r h
      simp only [TransPrecise.translate_value] at h
      injection h with h; subst h; rfl
  | hnull =>
      intro fieldName fieldPath r h
      simp only [TransPrecise.translate_value] at h
      injection h with h; subst h; rfl
  | harr es ihm =>
      intro fieldName fieldPath r h
      cases es with
      | nil =>
          simp only [TransPrecise.translate_value] at h
          injection h with h; subst h; rfl
      | cons first rest =>
          cases first with
          | str fs =>
              simp only [TransPrecise.translate_value] at h
              by_cases hc : TranslationConfig.should_translate_field fileName fieldPath
                  fieldName = true
              · rw [if_pos hc] at h
                cases hx : TransPrecise.translateStrArr tt (JVal.str fs :: rest) with
                | error e => rw [hx] at h; exact absurd h (by simp)
                | ok items =>
                    rw [hx] at h
                    injection h with h
                    subst h
                    have := TransPrecise.translateStrArr_shape tt _ _ hx
                    simp [shapeOf, this]
              · rw [if_neg hc] at h
                injection h with h
                subst h
                rfl
          | num n =>
              simp only [TransPrecise.translate_value] at h
              cases hx : TransPrecise.translateArr tt fileName (JVal.num n :: rest)
                  (if fieldName ≠ "" then fieldPath ++ [fieldName] else fieldPath) with
              | error e => rw [hx] at h; exact absurd h (by simp)
              | ok items =>
                  rw [hx] at h
                  injection h with h
                  subst h
                  have := TransPrecise.translateArr_shape tt fileName _ ihm _ _ hx
                  simp [shapeOf, this]
          | bool b =>
              simp only [TransPrecise.translate_value] at h
              cases hx : TransPrecise.translateArr tt fileName (JVal.bool b :: rest)
                  (if fieldName ≠ "" then fieldPath ++ [fieldName] else fieldPath) with
              | error e => rw [hx] at h; exact absurd h (by simp)
              | ok items =>
                  rw [hx] at h
                  injection h with h
                  subst h
                  have := TransPrecise.translateArr_shape tt fileName _ ihm _ _ hx
                  simp [shapeOf, this]
          | null =>
              simp only [TransPrecise.translate_value] at h
              cases hx : TransPrecise.translateArr tt fileName (JVal.null :: rest)
                  (if fieldName ≠ "" then fieldPath ++ [fieldName] else fieldPath) with
              | error e => rw [hx] at h; exact absurd h (by simp)
              | ok items =>
                  rw [hx] at h
                  injection h with h
                  subst h
                  have := TransPrecise.translateArr_shape tt fileName _ ihm _ _ hx
                  simp [shapeOf, this]
          | arr es2 =>
              simp only [TransPrecise.translate_value] at h
              cases hx : TransPrecise.translateArr tt fileName (JVal.arr es2 :: rest)
                  (if fieldName ≠ "" then fieldPath ++ [fieldName] else fieldPath) with
              | error e => rw [hx] at h; exact absurd h (by simp)
              | ok items =>
                  rw [hx] at h
                  injection h with h
                  subst h
                  have := TransPrecise.translateArr_shape tt fileName _ ihm _ _ hx
                  simp [shapeOf, this]
          | obj kvs2 =>
              simp only [TransPrecise.translate_value] at h
              cases hx : TransPrecise.translateArr tt fileName (JVal.obj kvs2 :: rest)
                  (if fieldName ≠ "" then fieldPath ++ [fieldName] else fieldPath) with
              | error e => rw [hx] at h; exact absurd h (by simp)
              | ok items =>
                  rw [hx] at h
                  injection h with h
                  subst h
                  have := TransPrecise.translateArr_shape tt fileName _ ihm _ _ hx
                  simp [shapeOf, this]
  | hobj kvs ihm =>
      intro fieldName fieldPath r h
      simp only [TransPrecise.translate_value] at h
      cases hx : TransPrecise.translateObj tt fileName kvs
          (if fieldName ≠ "" then fieldPath ++ [fieldName] else fieldPath) with
      | error e => rw [hx] at h; exact absurd h (by simp)
      | ok kvs' =>
          rw [hx] at h
          injection h with h
          subst h
          have := TransPrecise.translateObj_shape tt fileName _ ihm _ _ hx
          simp [shapeOf, this]

/-- Witness for the amended C1: a concrete successful walk of an actions file
(the `name` leaf is translated, the `id` leaf is not) whose result has the
same shape as the input. -/
theorem precise_walk_preserves_shape_witness :
    shapeOf (JVal.obj [("actions", JVal.arr
        [JVal.obj [("name", JVal.str "T"), ("id", JVal.str "x1")]])]) =
    shapeOf (JVal.obj [("actions", JVal.arr
        [JVal.obj [("name", JVal.str "Shoot"), ("id", JVal.str "x1")]])]) :=
  precise_walk_preserves_shape (fun _ => "T") "actions.json"
    (JVal.obj [("actions", JVal.arr
        [JVal.obj [("name", JVal.str "Shoot"), ("id", JVal.str "x1")]])])
    "" [] _ rfl

/-! ### translate_fast.py -/

namespace TransFast

/-- `NON_TRANSLATABLE` from translate_fast.py. -/
def NON_TRANSLATABLE : List String :=
  ["id", "type", "seq", "AP", "APL", "GA", "DF", "SV", "W", "M",
   "MV", "version", "file", "D", "A", "BS", "WS"]

/-- `TRANSLATABLE` from translate_fast.py. -/
def TRANSLATABLE : List String :=
  ["name", "description", "killteamName", "opTypeName", "wepName",
   "abilityName", "ployName", "eqName", "optionName", "title",
   "profileName", "composition", "reveal", "additionalRules",
   "victoryPoints", "ability", "keyword", "team"]

/-- The inline `archetype_map` of the `archetypes` array branch. -/
def archetype_map (lang : String) : List (String × String) :=
  if lang = "es" then
    [("Security", "Seguridad"), ("Seek & Destroy", "Buscar y Destruir"),
     ("Recon", "Reconocimiento"), ("Infiltration", "Infiltración")]
  else if lang = "fr" then
    [("Security", "Sécurité"), ("Seek & Destroy", "Rechercher et Détruire"),
     ("Recon", "Reconnaissance"), ("Infiltration", "Infiltration")]
  else []

/-- The string branch of `translate_value_recursive`: include/exclude lists,
then the id/code suffix check, then the whitespace guard. -/
def fastStr (tt : String → String) (s : String) (fieldName : String) : String :=
  if fieldName ∈ TRANSLATABLE ∨
      (fieldName ∉ NON_TRANSLATABLE ∧ strippedNonEmpty s = true) then
    if endsIdCode fieldName then s
    else if strippedNonEmpty s then tt s else s
  else s

mutual
/-- `translate_value_recursive(value, field_name, target_lang, translate_func)`
from translate_fast.py.  An `.error` models the exception raised when a
string-handling array branch meets a non-string element (`item.strip()` /
the provider call on a non-string). -/
def translate_value_recursive (tt : String → String) (lang : String) :
    JVal → String → Except Unit JVal
  | .str s, fieldName => .ok (.str (fastStr tt s fieldName))
  | .num n, _ => .ok (.num n)
  | .bool b, _ => .ok (.bool b)
  | .null, _ => .ok .null
  | .obj kvs, _ =>
      match fastObj tt lang kvs with
      | .error e => .error e
      | .ok kvs' => .ok (.obj kvs')
  | .arr [], _ => .ok (.arr [])
  | .arr (first :: rest), fieldName =>
      match first with
      | .str fs =>
          if fieldName ∈ (["effects", "conditions", "packs"] : List String) then
            match fastStrMap tt (first :: rest) with
            | .error e => .error e
            | .ok items => .ok (.arr items)
          else if fieldName = "archetypes" then
            match fastArchetypes tt lang (first :: rest) with
            | .error e => .error e
            | .ok items => .ok (.arr items)
          else if strippedNonEmpty fs then
            match fastStrMap tt (first :: rest) with
            | .error e => .error e
            | .ok items => .ok (.arr items)
          else
            match fastList tt lang (first :: rest) fieldName with
            | .error e => .error e
            | .ok items => .ok (.arr items)
      | _ =>
          match fastList tt lang (first :: rest) fieldName with
          | .error e => .error e
          | .ok items => .ok (.arr items)

/-- `[translate_func(item, target_lang) if item.strip() else item ...]`:
whitespace elements pass through, the rest are translated. -/
def fastStrMap (tt : String → String) : List JVal → Except Unit (List JVal)
  | [] => .ok []
  | .str s :: rest =>
      match fastStrMap tt rest with
      | .error e => .error e
      | .ok rest' =>
          if strippedNonEmpty s then .ok (.str (tt s) :: rest')
          else .ok (.str s :: rest')
  | _ :: _ => .error ()

/-- The `archetypes` branch: `archetype_map.get(target_lang, {}).get(item,
translate_func(item, target_lang))` — elements found in the map use the mapped
value, every other element (whitespace included) gets the transform. -/
def fastArchetypes (tt : String → String) (lang : String) :
    List JVal → Except Unit (List JVal)
  | [] => .ok []
  | .str s :: rest =>
      match fastArchetypes tt lang rest with
      | .error e => .error e
      | .ok rest' =>
          match lookupKV (archetype_map lang) s with
          | some t => .ok (.str t :: rest')
          | none => .ok (.str (tt s) :: rest')
  | _ :: _ => .error ()

/-- The final list comprehension: recurse on each element with the array's own
field name. -/
def fastList (tt : String → String) (lang : String) :
    List JVal → String → Except Unit (List JVal)
  | [], _ => .ok []
  | v :: rest, fieldName =>
      match translate_value_recursive tt lang v fieldName with
      | .error e => .error e
      | .ok v' =>
          match fastList tt lang rest fieldName with
          | .error e => .error e
          | .ok rest' => .ok (v' :: rest')

/-- The dict branch: keys stay in English, values are walked with their key as
the field name. -/
def fastObj (tt : String → String) (lang : String) :
    List (String × JVal) → Except Unit (List (String × JVal))
  | [] => .ok []
  | (k, v) :: rest =>
      match translate_value_recursive tt lang v k with
      | .error e => .error e
      | .ok v' =>
          match fastObj tt lang rest with
          | .error e => .error e
          | .ok rest' => .ok ((k, v') :: rest')
end

end TransFast

namespace TransPrecise

/-- A whitespace-only string leaf is returned unchanged by the precise walker. -/
theorem translate_value_str_ws (tt : String → String) (fileName fieldName : String)
    (fieldPath : List String) (s : String) (hws : strippedNonEmpty s = false) :
    translate_value tt fileName (.str s) fieldName fieldPath = .ok (.str s) := by
  simp [translate_value, hws]

/-- Whitespace-only elements survive the string-array loop unchanged. -/
theorem translateStrArr_ws_elem (tt : String → String) :
    ∀ (items items' : List JVal), translateStrArr tt items = .ok items' →
      ∀ (i : Nat) (s : String), items[i]? = some (.str s) →
        strippedNonEmpty s = false → items'[i]? = some (.str s) := by
  intro items
  induction items with
  | nil => intro items' h i s hi hws; simp at hi
  | cons head rest ih =>
      intro items' h i s hi hws
      cases head with
      | str s0 =>
          simp only [translateStrArr] at h
          split at h
          · exact Except.noConfusion h
          next rest' heq =>
            split at h
            next hs0 =>
              injection h with h
              subst h
              cases i with
              | zero =>
                  simp only [List.getElem?_cons_zero, Option.some.injEq,
                    JVal.str.injEq] at hi
                  subst hi
                  exact absurd hs0 (by simp [hws])
              | succ n =>
                  simp only [List.getElem?_cons_succ] at hi ⊢
                  exact ih rest' heq n s hi hws
            next hs0 =>
              injection h with h
              subst h
              cases i with
              | zero =>
                  simp only [List.getElem?_cons_zero, Option.some.injEq,
                    JVal.str.injEq] at hi ⊢
                  exact hi
              | succ n =>
                  simp only [List.getElem?_cons_succ] at hi ⊢
                  exact ih rest' heq n s hi hws
      | num n => simp only [translateStrArr] at h; exact Except.noConfusion h
      | bool b => simp only [translateStrArr] at h; exact Except.noConfusion h
      | null => simp only [translateStrArr] at h; exact Except.noConfusion h
      | arr es => simp only [translateStrArr] at h; exact Except.noConfusion h
      | obj kvs => simp only [translateStrArr] at h; exact Except.noConfusion h

/-- Whitespace-only string elements survive the structured-array loop. -/
theorem translateArr_ws_elem (tt : String → String) (fileName : String) :
    ∀ (items : List JVal) (path : List String) (items' : List JVal),
      translateArr tt fileName items path = .ok items' →
      ∀ (i : Nat) (s : String), items[i]? = some (.str s) →
        strippedNonEmpty s = false → items'[i]? = some (.str s) := by
  intro items
  induction items with
  | nil => intro path items' h i s hi hws; simp at hi
  | cons head rest ih =>
      intro path items' h i s hi hws
      simp only [translateArr] at h
      split at h
      · exact Except.noConfusion h
      next v' hv =>
        split at h
        · exact Except.noConfusion h
        next rest' hrest =>
          injection h with h
          subst h
          cases i with
          | zero =>
              simp only [List.getElem?_cons_zero, Option.some.injEq] at hi
              subst hi
              have hws' := translate_value_str_ws tt fileName "" path s hws
              rw [hws'] at hv
              injection hv with hv
              simp [hv]
          | succ n =>
              simp only [List.getElem?_cons_succ] at hi ⊢
              exact ih path rest' hrest n s hi hws

/-- Whitespace-only elements of any array survive the precise walker, whatever
the classification says. -/
theorem translate_value_arr_ws_elem (tt : String → String)
    (fileName fieldName : String) (fieldPath : List String) :
    ∀ (es items : List JVal) (i : Nat) (s : String),
      translate_value tt fileName (.arr es) fieldName fieldPath = .ok (.arr items) →
      es[i]? = some (.str s) → strippedNonEmpty s = false →
      items[i]? = some (.str s) := by
  intro es items i s h hi hws
  cases es with
  | nil =>
      simp at hi
  | cons first rest =>
      cases first with
      | str fs =>
          simp only [translate_value] at h
          split at h
          · split at h
            · exact Except.noConfusion h
            next items0 heq =>
              injection h with h
              injection h with h
              subst h
              exact translateStrArr_ws_elem tt _ _ heq i s hi hws
          · injection h with h
            injection h with h
            subst h
            exact hi
      | num n =>
          simp only [translate_value] at h
          split at h
          · exact Except.noConfusion h
          next items0 heq =>
            injection h with h
            injection h with h
            subst h
            exact translateArr_ws_elem tt fileName _ _ _ heq i s hi hws
      | bool b =>
          simp only [translate_value] at h
          split at h
          · exact Except.noConfusion h
          next items0 heq =>
            injection h with h
            injection h with h
            subst h
            exact translateArr_ws_elem tt fileName _ _ _ heq i s hi hws
      | null =>
          simp only [translate_value] at h
          split at h
          · exact Except.noConfusion h
          next items0 heq =>
            injection h with h
            injection h with h
            subst h
            exact translateArr_ws_elem tt fileName _ _ _ heq i s hi hws
      | arr es2 =>
          simp only [translate_value] at h
          split at h
          · exact Except.noConfusion h
          next items0 heq =>
            injection h with h
            injection h with h
            subst h
            exact translateArr_ws_elem tt fileName _ _ _ heq i s hi hws
      | obj kvs2 =>
          simp only [translate_value] at h
          split at h
          · exact Except.noConfusion h
          next items0 heq =>
            injection h with h
            injection h with h
            subst h
            exact translateArr_ws_elem tt fileName _ _ _ heq i s hi hws

end TransPrecise

namespace TransFast

/-- A whitespace-only string is never transformed by the fast string branch. -/
theorem fastStr_ws (tt : String → String) (s fieldName : String)
    (hws : strippedNonEmpty s = false) : fastStr tt s fieldName = s := by
  unfold fastStr
  split
  · split
    · rfl
    · simp [hws]
  · rfl

/-- A whitespace-only string leaf is returned unchanged by the fast walker. -/
theorem translate_value_recursive_str_ws (tt : String → String)
    (lang fieldName s : String) (hws : strippedNonEmpty s = false) :
    translate_value_recursive tt lang (.str s) fieldName = .ok (.str s) := by
  simp [translate_value_recursive, fastStr_ws tt s fieldName hws]

/-- Whitespace-only elements survive the guarded string-array comprehension. -/
theorem fastStrMap_ws_elem (tt : String → String) :
    ∀ (items items' : List JVal), fastStrMap tt items = .ok items' →
      ∀ (i : Nat) (s : String), items[i]? = some (.str s) →
        strippedNonEmpty s = false → items'[i]? = some (.str s) := by
  intro items
  induction items with
  | nil => intro items' h i s hi hws; simp at hi
  | cons head rest ih =>
      intro items' h i s hi hws
      cases head with
      | str s0 =>
          simp only [fastStrMap] at h
          split at h
          · exact Except.noConfusion h
          next rest' heq =>
            split at h
            next hs0 =>
              injection h with h
              subst h
              cases i with
              | zero =>
                  simp only [List.getElem?_cons_zero, Option.some.injEq,
                    JVal.str.injEq] at hi
                  subst hi
                  exact absurd hs0 (by simp [hws])
              | succ n =>
                  simp only [List.getElem?_cons_succ] at hi ⊢
                  exact ih rest' heq n s hi hws
            next hs0 =>
              injection h with h
              subst h
              cases i with
              | zero =>
                  simp only [List.getElem?_cons_zero, Option.some.injEq,
                    JVal.str.injEq] at hi ⊢
                  exact hi
              | succ n =>
                  simp only [List.getElem?_cons_succ] at hi ⊢
                  exact ih rest' heq n s hi hws
      | num n => simp only [fastStrMap] at h; exact Except.noConfusion h
      | bool b => simp only [fastStrMap] at h; exact Except.noConfusion h
      | null => simp only [fastStrMap] at h; exact Except.noConfusion h
      | arr es => simp only [fastStrMap] at h; exact Except.noConfusion h
      | obj kvs => simp only [fastStrMap] at h; exact Except.noConfusion h

/-- Whitespace-only string elements survive the recursive comprehension. -/
theorem fastList_ws_elem (tt : String → String) (lang : String) :
    ∀ (items : List JVal) (fieldName : String) (items' : List JVal),
      fastList tt lang items fieldName = .ok items' →
      ∀ (i : Nat) (s : String), items[i]? = some (.str s) →
        strippedNonEmpty s = false → items'[i]? = some (.str s) := by
  intro items
  induction items with
  | nil => intro fieldName items' h i s hi hws; simp at hi
  | cons head rest ih =>
      intro fieldName items' h i s hi hws
      simp only [fastList] at h
      split at h
      · exact Except.noConfusion h
      next v' hv =>
        split at h
        · exact Except.noConfusion h
        next rest' hrest =>
          injection h with h
          subst h
          cases i with
          | zero =>
              simp only [List.getElem?_cons_zero, Option.some.injEq] at hi
              subst hi
              have hws' := translate_value_recursive_str_ws tt lang fieldName s hws
              rw [hws'] at hv
              injection hv with hv
              simp [hv]
          | succ n =>
              simp only [List.getElem?_cons_succ] at hi ⊢
              exact ih fieldName rest' hrest n s hi hws

/-- Outside the `archetypes` branch, whitespace-only elements of any array
survive the fast walker. -/
theorem translate_value_recursive_arr_ws_elem (tt : String → String)
    (lang fieldName : String) (hname : fieldName ≠ "archetypes") :
    ∀ (es items : List JVal) (i : Nat) (s : String),
      translate_value_recursive tt lang (.arr es) fieldName = .ok (.arr items) →
      es[i]? = some (.str s) → strippedNonEmpty s = false →
      items[i]? = some (.str s) := by
  intro es items i s h hi hws
  cases es with
  | nil => simp at hi
  | cons first rest =>
      cases first with
      | str fs =>
          simp only [translate_value_recursive] at h
          split at h
          · split at h
            · exact Except.noConfusion h
            next items0 heq =>
              injection h with h
              injection h with h
              subst h
              exact fastStrMap_ws_elem tt _ _ heq i s hi hws
          · split at h
            · split at h
              · exact Except.noConfusion h
              next items0 heq =>
                injection h with h
                injection h with h
                subst h
                exact fastStrMap_ws_elem tt _ _ heq i s hi hws
            · split at h
              · exact Except.noConfusion h
              next items0 heq =>
                injection h with h
                injection h with h
                subst h
                exact fastList_ws_elem tt lang _ _ _ heq i s hi hws
      | num n =>
          simp only [translate_value_recursive] at h
          split at h
          · exact Except.noConfusion h
          next items0 heq =>
            injection h with h
            injection h with h
            subst h
            exact fastList_ws_elem tt lang _ _ _ heq i s hi hws
      | bool b =>
          simp only [translate_value_recursive] at h
          split at h
          · exact Except.noConfusion h
          next items0 heq =>
            injection h with h
            injection h with h
            subst h
            exact fastList_ws_elem tt lang _ _ _ heq i s hi hws
      | null =>
          simp only [translate_value_recursive] at h
          split at h
          · exact Except.noConfusion h
          next items0 heq =>
            injection h with h
            injection h with h
            subst h
            exact fastList_ws_elem tt lang _ _ _ heq i s hi hws
      | arr es2 =>
          simp only [translate_value_recursive] at h
          split at h
          · exact Except.noConfusion h
          next items0 heq =>
            injection h with h
            injection h with h
            subst h
            exact fastList_ws_elem tt lang _ _ _ heq i s hi hws
      | obj kvs2 =>
          simp only [translate_value_recursive] at h
          split at h
          · exact Except.noConfusion h
          next items0 heq =>
            injection h with h
            injection h with h
            subst h
            exact fastList_ws_elem tt lang _ _ _ heq i s hi hws

end TransFast

/-- C5 (amended): for every string leaf that is empty or whitespace-only, the
tree walk returns it unchanged and the leaf transform's value on it is never
used — both for string leaves reached as object values and for elements of
string arrays — in translate_precise.py always, and in translate_fast.py for
every array except one named `archetypes`, whose elements that are absent from
the built-in archetype map are handed to the leaf transform even when
whitespace-only. -/
theorem whitespace_strings_pass_through :
    (∀ (tt : String → String) (fileName fieldName : String)
        (fieldPath : List String) (s : String),
      strippedNonEmpty s = false →
      TransPrecise.translate_value tt fileName (.str s) fieldName fieldPath =
        .ok (.str s)) ∧
    (∀ (tt : String → String) (fileName fieldName : String)
        (fieldPath : List String) (es items : List JVal) (i : Nat) (s : String),
      TransPrecise.translate_value tt fileName (.arr es) fieldName fieldPath =
        .ok (.arr items) →
      es[i]? = some (.str s) → strippedNonEmpty s = false →
      items[i]? = some (.str s)) ∧
    (∀ (tt : String → String) (lang fieldName s : String),
      strippedNonEmpty s = false →
      TransFast.translate_value_recursive tt lang (.str s) fieldName =
        .ok (.str s)) ∧
    (∀ (tt : String → String) (lang fieldName : String)
        (es items : List JVal) (i : Nat) (s : String),
      fieldName ≠ "archetypes" →
      TransFast.translate_value_recursive tt lang (.arr es) fieldName =
        .ok (.arr items) →
      es[i]? = some (.str s) → strippedNonEmpty s = false →
      items[i]? = some (.str s)) := by
  refine ⟨fun tt f n p s h => TransPrecise.translate_value_str_ws tt f n p s h,
    fun tt f n p es items i s h hi hws =>
      TransPrecise.translate_value_arr_ws_elem tt f n p es items i s h hi hws,
    fun tt lang n s h => TransFast.translate_value_recursive_str_ws tt lang n s h,
    fun tt lang n es items i s hn h hi hws =>
      TransFast.translate_value_recursive_arr_ws_elem tt lang n hn es items i s h hi hws⟩

/-- C5 counterexample: translate_fast.py applies the leaf transform to a
whitespace-only element of an `archetypes` array.  With the transform that
returns `"X"` for every input, the document `{"archetypes": [" "]}` becomes
`{"archetypes": ["X"]}`: the whitespace-only leaf `" "` is not returned
unchanged. -/
theorem fast_archetypes_transforms_whitespace :
    TransFast.translate_value_recursive (fun _ => "X") "es"
        (JVal.obj [("archetypes", JVal.arr [JVal.str " "])]) "" =
      .ok (JVal.obj [("archetypes", JVal.arr [JVal.str "X"])]) ∧
    strippedNonEmpty " " = false ∧ (" " : String) ≠ "X" :=
  ⟨rfl, by decide, by decide⟩

/-- Witness for the amended C5: whitespace leaves survive both walkers, both
directly and inside in-scope string arrays. -/
theorem whitespace_strings_pass_through_witness :
    TransPrecise.translate_value (fun _ => "X") "actions.json"
        (JVal.str "  ") "name" ["actions"] = .ok (JVal.str "  ") ∧
    (([JVal.str "X", JVal.str "  "] : List JVal))[1]? = some (JVal.str "  ") ∧
    TransFast.translate_value_recursive (fun _ => "X") "es"
        (JVal.str " ") "name" = .ok (JVal.str " ") ∧
    (([JVal.str " "] : List JVal))[0]? = some (JVal.str " ") := by
  refine ⟨?_, ?_, ?_, ?_⟩
  · exact whitespace_strings_pass_through.1 (fun _ => "X") "actions.json" "name"
      ["actions"] "  " (by decide)
  · exact whitespace_strings_pass_through.2.1 (fun _ => "X") "actions.json"
      "effects" ["actions"] [JVal.str "hello", JVal.str "  "]
      [JVal.str "X", JVal.str "  "] 1 "  " rfl rfl (by decide)
  · exact whitespace_strings_pass_through.2.2.1 (fun _ => "X") "es" "name" " "
      (by decide)
  · exact whitespace_strings_pass_through.2.2.2 (fun _ => "X") "es" "effects"
      [JVal.str " "] [JVal.str " "] 0 " " (by decide) rfl rfl (by decide)

/-! ### check_unicode.py -/

namespace CheckUnicode

/-- The `UNICODE_TO_ASCII` substitution table: each ambiguous code point maps
to its ASCII replacement string (here a character list). -/
def UNICODE_TO_ASCII : List (Char × List Char) :=
  [('’', ['\'']), ('‘', ['\'']),
   ('“', ['"']), ('”', ['"']),
   ('–', ['-']), ('—', ['-']),
   (' ', [' ']), ('…', ['.', '.', '.']),
   ('Â', ['A']), ('Ô', ['O']),
   ('â', ['a']), ('ô', ['o'])]

/-- Python `s.replace(u, rep)` for a single-character pattern `u`. -/
def substC (u : Char) (rep : List Char) : List Char → List Char
  | [] => []
  | c :: rest => (if c = u then rep else [c]) ++ substC u rep rest

/-- The `for unicode_char, ascii_char in UNICODE_TO_ASCII.items()` loop of
`fix_string_value`, without the replacement counter (the `if unicode_char in
fixed` guard only affects the counter: `replace` is the identity when the
pattern is absent). -/
def applyTable : List (Char × List Char) → List Char → List Char
  | [], s => s
  | (u, rep) :: rest, s => applyTable rest (substC u rep s)

/-- The character normalization applied to one string value. -/
def fix_string (s : List Char) : List Char := applyTable UNICODE_TO_ASCII s

theorem substC_not_mem (u : Char) (rep : List Char) :
    ∀ s : List Char, u ∉ s → substC u rep s = s := by
  intro s
  induction s with
  | nil => intro _; rfl
  | cons c rest ih =>
      intro h
      simp only [List.mem_cons, not_or] at h
      simp [substC, ih h.2, if_neg (Ne.symm h.1)]

theorem applyTable_of_no_patterns :
    ∀ (L : List (Char × List Char)) (s : List Char),
      (∀ p ∈ L, p.1 ∉ s) → applyTable L s = s := by
  intro L
  induction L with
  | nil => intro s _; rfl
  | cons p rest ih =>
      intro s h
      obtain ⟨u, rep⟩ := p
      have hu : u ∉ s := h (u, rep) (by simp)
      simp only [applyTable, substC_not_mem u rep s hu]
      exact ih s (fun q hq => h q (by simp [hq]))

theorem mem_substC (u : Char) (rep : List Char) :
    ∀ (s : List Char) (c : Char), c ∈ substC u rep s → c ∈ rep ∨ (c ∈ s ∧ c ≠ u) := by
  intro s
  induction s with
  | nil => intro c h; exact absurd h (by simp [substC])
  | cons d rest ih =>
      intro c h
      simp only [substC, List.mem_append] at h
      rcases h with h | h
      · by_cases hd : d = u
        · rw [if_pos hd] at h
          exact Or.inl h
        · rw [if_neg hd] at h
          simp only [List.mem_singleton] at h
          subst h
          exact Or.inr ⟨by simp, hd⟩
      · rcases ih c h with h' | h'
        · exact Or.inl h'
        · exact Or.inr ⟨by simp [h'.1], h'.2⟩

/-- Once a character is absent it is never reintroduced, as long as no
replacement string contains it. -/
theorem applyTable_not_introduced (u : Char) :
    ∀ (L : List (Char × List Char)) (s : List Char),
      u ∉ s → (∀ p ∈ L, u ∉ p.2) → u ∉ applyTable L s := by
  intro L
  induction L with
  | nil => intro s hs _; exact hs
  | cons p rest ih =>
      intro s hs hrep
      obtain ⟨v, rep⟩ := p
      simp only [applyTable]
      refine ih (substC v rep s) ?_ (fun q hq => hrep q (by simp [hq]))
      intro hmem
      rcases mem_substC v rep s u hmem with h | h
      · exact hrep (v, rep) (by simp) h
      · exact hs h.1

/-- After the whole table is applied, every pattern of the table is gone,
provided no replacement string contains any pattern character. -/
theorem applyTable_removes (u : Char) (rep : List Char) :
    ∀ (L : List (Char × List Char)) (s : List Char),
      (u, rep) ∈ L → (∀ p ∈ L, u ∉ p.2) → u ∉ applyTable L s := by
  intro L
  induction L with
  | nil => intro s h _; exact absurd h (by simp)
  | cons q rest ih =>
      intro s hmem hrep
      obtain ⟨v, vrep⟩ := q
      simp only [applyTable]
      rcases List.mem_cons.mp hmem with h | h
      · obtain ⟨h1, h2⟩ := Prod.mk.injEq .. ▸ h
        subst h1
        subst h2
        refine applyTable_not_introduced u rest (substC u rep s) ?_
          (fun p hp => hrep p (by simp [hp]))
        intro hm
        rcases mem_substC u rep s u hm with h' | h'
        · exact hrep (u, rep) (by simp) h'
        · exact h'.2 rfl
      · exact ih (substC v vrep s) h (fun p hp => hrep p (by simp [hp]))

/-- No replacement string of `UNICODE_TO_ASCII` contains any character that is
itself a pattern of the table. -/
theorem table_replacements_clean :
    ∀ p ∈ UNICODE_TO_ASCII, ∀ q ∈ UNICODE_TO_ASCII, p.1 ∉ q.2 := by decide

end CheckUnicode

/-- C7: the character normalization of check_unicode.py is idempotent — one
pass removes every occurrence of the twelve ambiguous code points, and no ASCII
replacement reintroduces one, so a second pass is the identity. -/
theorem fix_string_idempotent (s : List Char) :
    CheckUnicode.fix_string (CheckUnicode.fix_string s) = CheckUnicode.fix_string s :=
  CheckUnicode.applyTable_of_no_patterns CheckUnicode.UNICODE_TO_ASCII
    (CheckUnicode.fix_string s)
    (fun p hp =>
      CheckUnicode.applyTable_removes p.1 p.2 CheckUnicode.UNICODE_TO_ASCII s hp
        (fun q hq => CheckUnicode.table_replacements_clean p hp q hq))

namespace CheckUnicode

/-- The counting version of the replacement loop: the count increases by the
number of occurrences whenever the pattern is present (the `if unicode_char in
fixed` guard of the source). -/
def applyTableCount : List (Char × List Char) → List Char → Nat → List Char × Nat
  | [], s, n => (s, n)
  | (u, rep) :: rest, s, n =>
      if u ∈ s then applyTableCount rest (substC u rep s) (n + s.count u)
      else applyTableCount rest s n

/-- The string branch of `fix_string_value` with its replacement counter. -/
def fixStringCount (s : List Char) : List Char × Nat :=
  applyTableCount UNICODE_TO_ASCII s 0

mutual
/-- `fix_string_value(value, replacements_count)` from check_unicode.py:
normalize every string value, leave keys and non-string scalars alone, and
accumulate the total number of replacements. -/
def fix_string_value : JVal → JVal × Nat
  | .str s =>
      let r := fixStringCount s.data
      (.str (String.mk r.1), r.2)
  | .num n => (.num n, 0)
  | .bool b => (.bool b, 0)
  | .null => (.null, 0)
  | .arr es =>
      let r := fixList es
      (.arr r.1, r.2)
  | .obj kvs =>
      let r := fixObj kvs
      (.obj r.1, r.2)
def fixList : List JVal → List JVal × Nat
  | [] => ([], 0)
  | v :: rest =>
      let rv := fix_string_value v
      let rr := fixList rest
      (rv.1 :: rr.1, rv.2 + rr.2)
def fixObj : List (String × JVal) → List (String × JVal) × Nat
  | [] => ([], 0)
  | (k, v) :: rest =>
      let rv := fix_string_value v
      let rr := fixObj rest
      ((k, rv.1) :: rr.1, rv.2 + rr.2)
end

mutual
/-- No string value anywhere in the document contains a character of the
substitution table. -/
def jvalNoUnicode : JVal → Bool
  | .str s => UNICODE_TO_ASCII.all (fun p => !(s.data.contains p.1))
  | .num _ => true
  | .bool _ => true
  | .null => true
  | .arr es => listNoUnicode es
  | .obj kvs => objNoUnicode kvs
def listNoUnicode : List JVal → Bool
  | [] => true
  | v :: rest => jvalNoUnicode v && listNoUnicode rest
def objNoUnicode : List (String × JVal) → Bool
  | [] => true
  | (_, v) :: rest => jvalNoUnicode v && objNoUnicode rest
end

theorem applyTableCount_of_clean :
    ∀ (L : List (Char × List Char)) (s : List Char) (n : Nat),
      (∀ p ∈ L, p.1 ∉ s) → applyTableCount L s n = (s, n) := by
  intro L
  induction L with
  | nil => intro s n _; rfl
  | cons p rest ih =>
      intro s n h
      obtain ⟨u, rep⟩ := p
      have hu : u ∉ s := h (u, rep) (by simp)
      simp only [applyTableCount, if_neg hu]
      exact ih s n (fun q hq => h q (by simp [hq]))

theorem fix_string_value_of_clean :
    ∀ v : JVal, jvalNoUnicode v = true → fix_string_value v = (v, 0) := by
  intro v
  induction v using JVal.inductionOn with
  | hstr s =>
      intro h
      simp only [jvalNoUnicode, List.all_eq_true] at h
      have hclean : ∀ p ∈ UNICODE_TO_ASCII, p.1 ∉ s.data := by
        intro p hp
        have := h p hp
        simpa using this
      simp only [fix_string_value, fixStringCount,
        applyTableCount_of_clean UNICODE_TO_ASCII s.data 0 hclean]
  | hnum n => intro _; rfl
  | hbool b => intro _; rfl
  | hnull => intro _; rfl
  | harr es ihm =>
      intro h
      simp only [jvalNoUnicode] at h
      have haux : ∀ (l : List JVal), (∀ e ∈ l, jvalNoUnicode e = true → fix_string_value e = (e, 0)) →
          listNoUnicode l = true → fixList l = (l, 0) := by
        intro l
        induction l with
        | nil => intro _ _; rfl
        | cons hd tl ihtl =>
            intro hIH hclean
            simp only [listNoUnicode, Bool.and_eq_true] at hclean
            simp only [fixList, hIH hd (by simp) hclean.1,
              ihtl (fun e he h' => hIH e (by simp [he]) h') hclean.2]
      simp only [fix_string_value, haux es ihm h]
  | hobj kvs ihm =>
      intro h
      simp only [jvalNoUnicode] at h
      have haux : ∀ (l : List (String × JVal)),
          (∀ kv ∈ l, jvalNoUnicode kv.2 = true → fix_string_value kv.2 = (kv.2, 0)) →
          objNoUnicode l = true → fixObj l = (l, 0) := by
        intro l
        induction l with
        | nil => intro _ _; rfl
        | cons hd tl ihtl =>
            obtain ⟨k, v⟩ := hd
            intro hIH hclean
            simp only [objNoUnicode, Bool.and_eq_true] at hclean
            simp only [fixObj, hIH (k, v) (by simp) hclean.1,
              ihtl (fun e he h' => hIH e (by simp [he]) h') hclean.2]
      simp only [fix_string_value, haux kvs ihm h]

/-- The observable effects of one `fix_file(filename, backup)` run:
the boolean it returns, the content written to the `.backup` sibling (if any),
and the data rewritten over the target file (`none` = the target is left
untouched). -/
structure FixFileResult where
  returned : Bool
  backupContent : Option String
  writtenData : Option JVal

/-- `fix_file` from check_unicode.py.  `parsed` is the outcome of
`json.loads(content)` (`none` models a parse error).  The backup is written as
soon as parsing succeeds, before any replacement is counted; the target is
rewritten only when the replacement count is non-zero.  (The post-fix
`json.dumps` validation cannot fail on a value produced by `fix_string_value`,
so it does not appear.) -/
def fix_file (content : String) (parsed : Option JVal) (backup : Bool) :
    FixFileResult :=
  match parsed with
  | none => ⟨false, none, none⟩
  | some data =>
      let bk := if backup then some content else none
      let r := fix_string_value data
      if r.2 = 0 then ⟨false, bk, none⟩
      else ⟨true, bk, some r.1⟩

end CheckUnicode

/-- C10: on a valid JSON file none of whose string values contains a character
of the substitution table, `fix_file` returns `False` and never rewrites the
target file, but the backup file is still created (with the original content)
before the count is known. -/
theorem fix_file_clean_no_rewrite (content : String) (data : JVal)
    (h : CheckUnicode.jvalNoUnicode data = true) :
    CheckUnicode.fix_file content (some data) true =
      ⟨false, some content, none⟩ := by
  have h0 := CheckUnicode.fix_string_value_of_clean data h
  simp [CheckUnicode.fix_file, h0]

/-- Witness for C10: a concrete ASCII-only document is left untouched while
its backup is written. -/
theorem fix_file_clean_no_rewrite_witness :
    CheckUnicode.fix_file "[1, \"ok\"]"
        (some (JVal.arr [JVal.num 1, JVal.str "ok"])) true =
      ⟨false, some "[1, \"ok\"]", none⟩ :=
  fix_file_clean_no_rewrite "[1, \"ok\"]"
    (JVal.arr [JVal.num 1, JVal.str "ok"]) (by decide)

/-! ### translate_batch.py -/

namespace TransBatch

/-- Python `s.split('\n')` on a character list. -/
def splitNL : List Char → List (List Char)
  | [] => [[]]
  | c :: rest =>
      match splitNL rest with
      | [] => [[]]
      | s :: ss => if c = '\n' then [] :: s :: ss else (c :: s) :: ss

/-- Python `'\n'.join(xs)` on character lists. -/
def joinNL : List (List Char) → List Char
  | [] => []
  | [x] => x
  | x :: xs => x ++ '\n' :: joinNL xs

/-- One provider call on a joined batch followed by the split along the same
separator (`translated.split('\n')` after `'\n'.join(current_batch)`). -/
def flush (tt : List Char → List Char) (batch : List (List Char)) :
    List (List Char) :=
  splitNL (tt (joinNL batch))

/-- The `for text in texts` loop of `translate_batch`, with the running batch,
its estimated size (`len(text) * 2`, a 4000-character budget) and the results
accumulator, followed by the final flush of the pending batch. -/
def batchLoop (tt : List Char → List Char) :
    List (List Char) → List (List Char) → Nat → List (List Char) → List (List Char)
  | [], batch, _, results =>
      if batch.isEmpty then results else results ++ flush tt batch
  | t :: rest, batch, size, results =>
      let tsize := 2 * t.length
      if 4000 < size + tsize ∧ ¬batch.isEmpty then
        batchLoop tt rest [t] tsize (results ++ flush tt batch)
      else
        batchLoop tt rest (batch ++ [t]) (size + tsize) results

/-- `translate_batch(texts, target_lang)` from translate_batch.py, with the
single-call provider `tt` a parameter: run the batching loop, pad with empty
strings up to the requested count, and truncate to exactly that count. -/
def translate_batch (tt : List Char → List Char) (texts : List (List Char)) :
    List (List Char) :=
  let results := batchLoop tt texts [] 0 []
  (results ++ List.replicate (texts.length - results.length) []).take texts.length

theorem splitNL_ne_nil : ∀ s : List Char, splitNL s ≠ [] := by
  intro s
  cases s with
  | nil => simp [splitNL]
  | cons c rest =>
      simp only [splitNL]
      cases h : splitNL rest with
      | nil => simp
      | cons x xs =>
          by_cases hc : c = '\n'
          · simp [hc]
          · simp [hc]

theorem splitNL_no_nl : ∀ s : List Char, '\n' ∉ s → splitNL s = [s] := by
  intro s
  induction s with
  | nil => intro _; rfl
  | cons c rest ih =>
      intro h
      simp only [List.mem_cons, not_or] at h
      simp [splitNL, ih h.2, Ne.symm h.1]

theorem splitNL_append_nl : ∀ (x r : List Char), '\n' ∉ x →
    splitNL (x ++ '\n' :: r) = x :: splitNL r := by
  intro x
  induction x with
  | nil =>
      intro r _
      simp only [List.nil_append, splitNL]
      cases h : splitNL r with
      | nil => exact absurd h (splitNL_ne_nil r)
      | cons s ss => simp
  | cons c x' ih =>
      intro r h
      simp only [List.mem_cons, not_or] at h
      simp only [List.cons_append, splitNL, List.append_eq]
      rw [ih r h.2]
      simp [Ne.symm h.1]

theorem splitNL_joinNL : ∀ xs : List (List Char), xs ≠ [] →
    (∀ x ∈ xs, '\n' ∉ x) → splitNL (joinNL xs) = xs := by
  intro xs
  induction xs with
  | nil => intro h _; exact absurd rfl h
  | cons x rest ih =>
      intro _ hnl
      cases rest with
      | nil => simpa [joinNL] using splitNL_no_nl x (hnl x (by simp))
      | cons y rest' =>
          have hx : '\n' ∉ x := hnl x (by simp)
          simp only [joinNL, splitNL_append_nl x _ hx]
          rw [ih (by simp) (fun z hz => hnl z (by simp [hz]))]

theorem flush_id (batch : List (List Char)) (hne : batch ≠ [])
    (hnl : ∀ x ∈ batch, '\n' ∉ x) :
    flush (fun s => s) batch = batch :=
  splitNL_joinNL batch hne hnl

theorem batchLoop_id : ∀ (rem batch : List (List Char)) (size : Nat)
    (results : List (List Char)),
    (∀ x ∈ rem, '\n' ∉ x) → (∀ x ∈ batch, '\n' ∉ x) →
    batchLoop (fun s => s) rem batch size results = results ++ batch ++ rem := by
  intro rem
  induction rem with
  | nil =>
      intro batch size results _ hbatch
      simp only [batchLoop]
      by_cases hb : batch.isEmpty
      · rw [if_pos hb]
        simp [List.isEmpty_iff.mp hb]
      · rw [if_neg hb]
        rw [flush_id batch (by simpa [List.isEmpty_iff] using hb) hbatch]
        simp
  | cons t rest ih =>
      intro batch size results hrem hbatch
      have ht : '\n' ∉ t := hrem t (by simp)
      have hrest : ∀ x ∈ rest, '\n' ∉ x := fun x hx => hrem x (by simp [hx])
      simp only [batchLoop]
      by_cases hc : 4000 < size + 2 * t.length ∧ ¬batch.isEmpty
      · rw [if_pos hc]
        rw [flush_id batch (by simpa [List.isEmpty_iff] using hc.2) hbatch]
        rw [ih [t] (2 * t.length) (results ++ batch) hrest (by simpa using ht)]
        simp
      · rw [if_neg hc]
        rw [ih (batch ++ [t]) (size + 2 * t.length) results hrest
          (by intro x hx
              rcases List.mem_append.mp hx with h | h
              · exact hbatch x h
              · simpa [List.mem_singleton.mp h] using ht)]
        simp

end TransBatch

/-- C6 counterexample: a string containing the separator breaks the batch
round-trip.  With the identity provider, the single input `"a\nb"` is joined,
split back into two lines, and truncated to one result: the output is `["a"]`,
not the original list. -/
theorem translate_batch_splits_embedded_newline :
    TransBatch.translate_batch (fun s => s) [['a', '\n', 'b']] = [['a']] ∧
    ([['a']] : List (List Char)) ≠ [['a', '\n', 'b']] := by
  exact ⟨rfl, by decide⟩

/-- C6 (amended): the batching transform always returns exactly one result per
input (padding with empty strings and truncating), and for inputs that do not
contain the line separator, batching with a verbatim provider returns exactly
the original strings in the original order. -/
theorem translate_batch_round_trip :
    (∀ (tt : List Char → List Char) (texts : List (List Char)),
      (TransBatch.translate_batch tt texts).length = texts.length) ∧
    (∀ texts : List (List Char), (∀ x ∈ texts, '\n' ∉ x) →
      TransBatch.translate_batch (fun s => s) texts = texts) := by
  constructor
  · intro tt texts
    simp only [TransBatch.translate_batch, List.length_take, List.length_append,
      List.length_replicate]
    omega
  · intro texts hnl
    simp only [TransBatch.translate_batch,
      TransBatch.batchLoop_id texts [] 0 [] hnl (by simp)]
    simp

/-- Witness for the amended C6: two newline-free strings round-trip through the
batcher, and the result count matches the input count even for a provider that
returns garbage. -/
theorem translate_batch_round_trip_witness :
    TransBatch.translate_batch (fun s => s) [['a', 'b'], ['c']] = [['a', 'b'], ['c']] ∧
    (TransBatch.translate_batch (fun _ => ['z']) [['a'], ['b'], ['c']]).length = 3 := by
  constructor
  · exact translate_batch_round_trip.2 [['a', 'b'], ['c']] (by decide)
  · exact translate_batch_round_trip.1 (fun _ => ['z']) [['a'], ['b'], ['c']]

/-! ### tools/clean_team_fields.py -/

namespace CleanTeam

/-- The root-level deprecated fields of `clean_team_file`. -/
def root_fields_to_remove : List String := ["isPublished", "isHomebrew", "userId"]

/-- The deprecated fields removed from each element of `opTypes`. -/
def opType_fields_to_remove : List String :=
  ["nameType", "isOpType", "isActivated", "currWOUNDS", "opName", "opType", "opId"]

/-- A sequence of `d.pop(field, None)` calls, one per listed name. -/
def pyPopAll (kvs : List (String × JVal)) (names : List String) :
    List (String × JVal) :=
  names.foldl (fun acc n => acc.filter (fun kv => !(kv.1 == n))) kvs

/-- In-place update of the value stored under an existing key. -/
def updateKV (kvs : List (String × JVal)) (k : String) (v : JVal) :
    List (String × JVal) :=
  kvs.map (fun kv => if kv.1 == k then (k, v) else kv)

/-- `weapon.pop('isDefault', None)`; a non-dict weapon raises. -/
def clean_weapon : JVal → Option JVal
  | .obj kvs => some (.obj (pyPopAll kvs ["isDefault"]))
  | _ => none

def cleanWeapons : List JVal → Option (List JVal)
  | [] => some []
  | w :: rest =>
      match clean_weapon w with
      | none => none
      | some w' =>
          match cleanWeapons rest with
          | none => none
          | some rest' => some (w' :: rest')

/-- The per-`opType` body of `clean_team_file`: pop the deprecated opType
fields, then pop `isDefault` from each weapon when `weapons` is a list. -/
def clean_opType : JVal → Option JVal
  | .obj kvs =>
      let kvs1 := pyPopAll kvs opType_fields_to_remove
      match lookupKV kvs1 "weapons" with
      | some (.arr ws) =>
          match cleanWeapons ws with
          | none => none
          | some ws' => some (.obj (updateKV kvs1 "weapons" (.arr ws')))
      | _ => some (.obj kvs1)
  | _ => none

def cleanOpTypes : List JVal → Option (List JVal)
  | [] => some []
  | ot :: rest =>
      match clean_opType ot with
      | none => none
      | some ot' =>
          match cleanOpTypes rest with
          | none => none
          | some rest' => some (ot' :: rest')

/-- The data transformation performed by `clean_team_file` between reading and
rewriting the file: pop the three root fields, then clean each element of
`opTypes` when it is a list.  `none` models the exception path (the file is
reported as failed and left unwritten). -/
def clean_team_data : JVal → Option JVal
  | .obj kvs =>
      let kvs1 := pyPopAll kvs root_fields_to_remove
      match lookupKV kvs1 "opTypes" with
      | some (.arr ots) =>
          match cleanOpTypes ots with
          | none => none
          | some ots' => some (.obj (updateKV kvs1 "opTypes" (.arr ots')))
      | _ => some (.obj kvs1)
  | _ => none

mutual
/-- `remove_fields_from_dict(obj, fields_to_remove)` from
clean_team_fields.py: recursive removal of the listed fields from every
dictionary at every depth.  It is defined in the source but `clean_team_file`
never calls it.  (The source pops the listed keys and then recurses into the
remaining values; since popping inspects only keys and recursion only values,
the single pass below computes the same dictionary.) -/
def remove_fields_from_dict (names : List String) : JVal → JVal
  | .obj kvs => .obj (removeObj names kvs)
  | .arr es => .arr (removeList names es)
  | v => v
def removeList (names : List String) : List JVal → List JVal
  | [] => []
  | v :: rest => remove_fields_from_dict names v :: removeList names rest
def removeObj (names : List String) :
    List (String × JVal) → List (String × JVal)
  | [] => []
  | (k, v) :: rest =>
      if names.contains k then removeObj names rest
      else (k, remove_fields_from_dict names v) :: removeObj names rest
end

mutual
/-- Does a key occur (as an object field name) anywhere in the document? -/
def hasKeyDeep : JVal → String → Bool
  | .obj kvs, k => hasKeyDeepObj kvs k
  | .arr es, k => hasKeyDeepList es k
  | _, _ => false
def hasKeyDeepList : List JVal → String → Bool
  | [], _ => false
  | v :: rest, k => hasKeyDeep v k || hasKeyDeepList rest k
def hasKeyDeepObj : List (String × JVal) → String → Bool
  | [], _ => false
  | (k0, v) :: rest, k => k0 == k || hasKeyDeep v k || hasKeyDeepObj rest k
end

/-- All eleven configured deprecated field names. -/
def all_deprecated_fields : List String :=
  root_fields_to_remove ++ opType_fields_to_remove ++ ["isDefault"]

/-- The amended specification, written declaratively: filter the three root
fields out of the root object; when `opTypes` is an array, filter the seven
opType fields out of the top level of each of its object elements, and filter
`isDefault` out of the top level of each object element of each such opType's
`weapons` array; leave every other key and value untouched. -/
def spec_weapon : JVal → Option JVal
  | .obj kvs => some (.obj (kvs.filter (fun kv => !(kv.1 == "isDefault"))))
  | _ => none

def spec_opType : JVal → Option JVal
  | .obj kvs =>
      let pruned := kvs.filter (fun kv => !(opType_fields_to_remove.contains kv.1))
      match lookupKV pruned "weapons" with
      | some (.arr ws) =>
          match ws.mapM spec_weapon with
          | none => none
          | some ws' => some (.obj (updateKV pruned "weapons" (.arr ws')))
      | _ => some (.obj pruned)
  | _ => none

def clean_spec : JVal → Option JVal
  | .obj kvs =>
      let pruned := kvs.filter (fun kv => !(root_fields_to_remove.contains kv.1))
      match lookupKV pruned "opTypes" with
      | some (.arr ots) =>
          match ots.mapM spec_opType with
          | none => none
          | some ots' => some (.obj (updateKV pruned "opTypes" (.arr ots')))
      | _ => some (.obj pruned)
  | _ => none

theorem pyPopAll_eq_filter :
    ∀ (names : List String) (kvs : List (String × JVal)),
      pyPopAll kvs names = kvs.filter (fun kv => !(names.contains kv.1)) := by
  intro names
  induction names with
  | nil =>
      intro kvs
      simp [pyPopAll]
  | cons n rest ih =>
      intro kvs
      have h1 : pyPopAll kvs (n :: rest) =
          pyPopAll (kvs.filter (fun kv => !(kv.1 == n))) rest := rfl
      rw [h1, ih, List.filter_filter]
      refine List.filter_congr (fun kv _ => ?_)
      by_cases hkv : kv.1 = n
      · simp [hkv, List.contains_cons]
      · simp [hkv, List.contains_cons, Bool.and_comm]

theorem clean_weapon_eq_spec (w : JVal) : clean_weapon w = spec_weapon w := by
  cases w <;> simp [clean_weapon, spec_weapon, pyPopAll]

theorem cleanWeapons_eq_spec :
    ∀ ws : List JVal, cleanWeapons ws = ws.mapM spec_weapon := by
  intro ws
  induction ws with
  | nil => rfl
  | cons w rest ih =>
      simp only [cleanWeapons, clean_weapon_eq_spec, ih, List.mapM_cons]
      cases spec_weapon w <;> cases rest.mapM spec_weapon <;> rfl

theorem clean_opType_eq_spec (ot : JVal) : clean_opType ot = spec_opType ot := by
  cases ot with
  | obj kvs =>
      simp only [clean_opType, spec_opType, pyPopAll_eq_filter, cleanWeapons_eq_spec]
  | str s => rfl
  | num n => rfl
  | bool b => rfl
  | null => rfl
  | arr es => rfl

theorem cleanOpTypes_eq_spec :
    ∀ ots : List JVal, cleanOpTypes ots = ots.mapM spec_opType := by
  intro ots
  induction ots with
  | nil => rfl
  | cons ot rest ih =>
      simp only [cleanOpTypes, clean_opType_eq_spec, ih, List.mapM_cons]
      cases spec_opType ot <;> cases rest.mapM spec_opType <;> rfl

end CleanTeam

/-- C8 counterexample: the deletion performed by `clean_team_file` is not
"at every depth".  On the document `{"x": {"userId": 5}}` the configured field
`userId` sits one object deeper than the root, so `clean_team_file` leaves the
document unchanged even though `userId` occurs in it; the recursive
`remove_fields_from_dict` (defined but never called) would have removed it. -/
theorem clean_team_file_not_deep :
    CleanTeam.clean_team_data (JVal.obj [("x", JVal.obj [("userId", JVal.num 5)])]) =
      some (JVal.obj [("x", JVal.obj [("userId", JVal.num 5)])]) ∧
    CleanTeam.hasKeyDeep (JVal.obj [("x", JVal.obj [("userId", JVal.num 5)])])
      "userId" = true ∧
    CleanTeam.remove_fields_from_dict CleanTeam.all_deprecated_fields
        (JVal.obj [("x", JVal.obj [("userId", JVal.num 5)])]) =
      JVal.obj [("x", JVal.obj [])] :=
  ⟨rfl, rfl, rfl⟩

/-- C8 (amended): `clean_team_file` removes exactly the configured fields at
their configured locations and nothing else — `isPublished`, `isHomebrew` and
`userId` at the document root only; `nameType`, `isOpType`, `isActivated`,
`currWOUNDS`, `opName`, `opType` and `opId` at the top level of each element of
the root `opTypes` array only; `isDefault` at the top level of each element of
each such opType's `weapons` array only — every other key and value is left
unchanged, as stated by the declarative `clean_spec`. -/
theorem clean_team_file_exact (j : JVal) :
    CleanTeam.clean_team_data j = CleanTeam.clean_spec j := by
  cases j with
  | obj kvs =>
      simp only [CleanTeam.clean_team_data, CleanTeam.clean_spec,
        CleanTeam.pyPopAll_eq_filter, CleanTeam.cleanOpTypes_eq_spec]
  | str s => rfl
  | num n => rfl
  | bool b => rfl
  | null => rfl
  | arr es => rfl

/-! ### tools/merge_actions.py -/

namespace MergeActions

/-- What happened when `merge_actions` tried to read one of its two input
files: the file does not exist (a warning is printed and the empty action list
is used), reading or parsing raised (the function returns `False`), or the
file parsed to a JSON document. -/
inductive ReadResult where
  | missing
  | failed
  | parsed (j : JVal)

/-- The per-file read block of `merge_actions`: `data.get('actions', [])` on a
parsed document (an exception — and `False` — for a non-dict document, whose
`.get` raises inside the `try`), `[]` for a missing file, an error for a
failed read. -/
def readActionsVal : ReadResult → Except Unit JVal
  | .missing => .ok (.arr [])
  | .failed => .error ()
  | .parsed (.obj kvs) =>
      .ok (match lookupKV kvs "actions" with
           | some v => v
           | none => .arr [])
  | .parsed _ => .error ()

/-- `merge_actions(lang_dir)` from merge_actions.py, with the outcome of the
two file reads made explicit: read universal actions, read mission actions,
concatenate (universal first) and write `{"actions": all_actions}`.  A
non-list `actions` value makes the `+` concatenation raise (uncaught in the
source); both exception paths are `.error` here. -/
def merge_actions (u m : ReadResult) : Except Unit JVal :=
  match readActionsVal u with
  | .error e => .error e
  | .ok ua =>
      match readActionsVal m with
      | .error e => .error e
      | .ok ma =>
          match ua, ma with
          | .arr xs, .arr ys => .ok (.obj [("actions", .arr (xs ++ ys))])
          | _, _ => .error ()

end MergeActions

/-- C9: merging actions is exact concatenation.  Whenever the two reads yield
action lists `xs` and `ys`, the written document is exactly
`{"actions": xs ++ ys}` — universal actions first, each element unchanged,
relative order preserved; a missing file contributes the empty list, and so
does a parsed document without an `actions` key, and the merge still succeeds
in those cases. -/
theorem merge_actions_exact_concat :
    (∀ (u m : MergeActions.ReadResult) (xs ys : List JVal),
      MergeActions.readActionsVal u = .ok (.arr xs) →
      MergeActions.readActionsVal m = .ok (.arr ys) →
      MergeActions.merge_actions u m =
        .ok (.obj [("actions", JVal.arr (xs ++ ys))])) ∧
    (MergeActions.readActionsVal .missing = .ok (.arr [])) ∧
    (∀ kvs : List (String × JVal), lookupKV kvs "actions" = none →
      MergeActions.readActionsVal (.parsed (.obj kvs)) = .ok (.arr [])) := by
  refine ⟨fun u m xs ys hu hm => ?_, rfl, fun kvs h => ?_⟩
  · simp [MergeActions.merge_actions, hu, hm]
  · simp [MergeActions.readActionsVal, h]

/-- Witness for C9: a universal file with one action merged with a missing
mission file yields exactly that one action. -/
theorem merge_actions_exact_concat_witness :
    MergeActions.merge_actions
        (.parsed (JVal.obj [("actions", JVal.arr [JVal.str "a"])])) .missing =
      .ok (JVal.obj [("actions", JVal.arr [JVal.str "a"])]) := by
  have h := merge_actions_exact_concat.1
    (.parsed (JVal.obj [("actions", JVal.arr [JVal.str "a"])])) .missing
    [JVal.str "a"] [] rfl rfl
  simpa using h
